import Mathlib

/-!
Verification of the hex-thing hex dump utility.

A shallow embedding of the `hex-thing` Rust program (src/main.rs,
src/byte_range.rs, src/util.rs) together with proofs about its behavior.

Conventions of the embedding:
* Rust `&str`/`String` values are modelled as `List Char` (a Rust `char`
  is a Unicode scalar value, exactly Lean's `Char`).
* Bytes (`u8`) are modelled as `Nat` with side conditions `< 256`.
* `usize` arithmetic that can overflow is modelled explicitly modulo `2 ^ 64`.
* Fallible operations return `Option` / `Except`.
* Loops are modelled by structurally recursive functions (fuel-based where
  the recursion is not structural, with fuel-independence proved).
-/

set_option autoImplicit false
set_option maxRecDepth 8192

/-- Unicode White_Space property, as used by Rust's `str::trim` /
`char::is_whitespace` (list of scalar values from the Unicode standard). -/
def rustIsWhitespace (c : Char) : Bool :=
  List.contains
    [9, 10, 11, 12, 13, 32, 0x85, 0xa0, 0x1680, 0x2000, 0x2001, 0x2002,
     0x2003, 0x2004, 0x2005, 0x2006, 0x2007, 0x2008, 0x2009, 0x200a,
     0x2028, 0x2029, 0x202f, 0x205f, 0x3000] c.toNat

/-- Rust `str::split(sep)` for a single-character pattern: the list of
(possibly empty) fragments between occurrences of `sep`.  Always returns at
least one fragment, like the Rust iterator. -/
def splitSep (sep : Char) : List Char → List (List Char)
  | [] => [[]]
  | c :: rest =>
    if c = sep then [] :: splitSep sep rest
    else
      match splitSep sep rest with
      | [] => [[c]]
      | p :: ps => (c :: p) :: ps

/-- Drop the longest suffix of `l` all of whose characters satisfy `p`. -/
def dropRightWhile (p : Char → Bool) (l : List Char) : List Char :=
  (l.reverse.dropWhile p).reverse

/-- Rust `str::trim`: remove leading and trailing whitespace. -/
def rustTrim (l : List Char) : List Char :=
  dropRightWhile rustIsWhitespace (l.dropWhile rustIsWhitespace)

/-- Rust `str::trim_start_matches("0x")`: repeatedly remove a leading `0x`. -/
def trimStart0x : List Char → List Char
  | '0' :: 'x' :: rest => trimStart0x rest
  | l => l

/-- Rust `char::to_digit(radix)`: the numeric value of an ASCII
digit/letter, provided it is below `radix`. -/
def digitValue (radix : Nat) (c : Char) : Option Nat :=
  let v : Option Nat :=
    if '0' ≤ c ∧ c ≤ '9' then some (c.toNat - 48)
    else if 'a' ≤ c ∧ c ≤ 'z' then some (c.toNat - 87)
    else if 'A' ≤ c ∧ c ≤ 'Z' then some (c.toNat - 55)
    else none
  match v with
  | some d => if d < radix then some d else none
  | none => none

/-- One accumulation step of `usize::from_str_radix`: multiply by the radix,
add the digit, and fail on overflow past `2 ^ 64` (64-bit `usize`). -/
def parseDigitsStep (radix : Nat) (acc : Option Nat) (c : Char) : Option Nat :=
  match acc, digitValue radix c with
  | some a, some d => if a * radix + d < 2 ^ 64 then some (a * radix + d) else none
  | _, _ => none

/-- Rust `usize::from_str_radix(s, radix)` (also `usize::from_str` with
`radix = 10`): an optional leading `+`, then a non-empty run of digits of the
given radix, accumulated with overflow checking. -/
def fromStrRadix (radix : Nat) (s : List Char) : Option Nat :=
  let s' := match s with
    | '+' :: rest => rest
    | other => other
  match s' with
  | [] => none
  | _ => s'.foldl (parseDigitsStep radix) (some 0)

/-- `util.rs` `parse_num`: `0x`-prefixed input is parsed as hexadecimal
(prefix removed), anything else as decimal. -/
def parse_num (input : List Char) : Option Nat :=
  if input.take 2 = ['0', 'x'] then fromStrRadix 16 (input.drop 2)
  else fromStrRadix 10 input

/-- `byte_range.rs` `ByteRange { start, end }` (`end` is a Lean keyword, so
the second field is named `stop`). -/
structure ByteRange where
  start : Nat
  stop : Nat
deriving DecidableEq, Repr

/-- `ByteRange::from_str`: split on `-`, require exactly two components, and
parse each component by first trying `usize::from_str_radix(part.trim_start_matches("0x"), 16)`
and, only if that fails, `usize::from_str(part)` (decimal). -/
def ByteRange.from_str (s : List Char) : Except String ByteRange :=
  let parts := splitSep '-' s
  let hexThenDec : List Char → Option Nat := fun p =>
    match fromStrRadix 16 (trimStart0x p) with
    | some v => some v
    | none => fromStrRadix 10 p
  match parts with
  | [p0, p1] =>
    match hexThenDec p0, hexThenDec p1 with
    | some s0, some e0 => .ok { start := s0, stop := e0 }
    | _, _ => .error "Range entries must either be in the format 0xFF or 255"
  | _ => .error "Range must be in the format start-end"

/-- Wrapping 64-bit `usize` subtraction, the release-profile semantics of
`range.end - range.start` in `main.rs` (a debug build would panic on
underflow; either way no `InvalidRange` error is produced). -/
def usizeWrappingSub (a b : Nat) : Nat :=
  (a + 2 ^ 64 - b % 2 ^ 64) % 2 ^ 64

/-- The `START` lazy static of `main.rs`: explicit range start, else skip,
else 0. -/
def resolveStart (byte_range : Option ByteRange) (skip : Option Nat) : Nat :=
  match byte_range with
  | some range => range.start
  | none =>
    match skip with
    | some num => num
    | none => 0

/-- The `MAX_COUNT` lazy static of `main.rs`: `Some(range.end - range.start)`
for an explicit range (unchecked subtraction), else the `--length` value. -/
def resolveMaxCount (byte_range : Option ByteRange) (length : Option Nat) : Option Nat :=
  match byte_range with
  | some range => some (usizeWrappingSub range.stop range.start)
  | none =>
    match length with
    | some num => some num
    | none => none

/-- The subset of the `colored` crate's `Color` enum used by `main.rs`. -/
inductive Color where
  | brightBlack
  | cyan
  | green
  | yellow
  | brightRed
deriving DecidableEq, Repr

/-- ANSI foreground code of each color, as emitted by the `colored` crate. -/
def colorCode : Color → Nat
  | .brightBlack => 90
  | .cyan => 36
  | .green => 32
  | .yellow => 33
  | .brightRed => 91

/-- `main.rs` `get_color`: per-byte color, with Rust first-match semantics
(the `32..=126` arm is only reached for 33–126 because `32` matched earlier). -/
def get_color (byte : Nat) : Color :=
  if byte = 0 then .brightBlack
  else if byte = 9 ∨ byte = 10 ∨ byte = 13 ∨ byte = 32 then .cyan
  else if 32 ≤ byte ∧ byte ≤ 126 then .green
  else if 128 ≤ byte ∧ byte ≤ 255 then .yellow
  else .brightRed

/-- `main.rs` `get_ascii`: the display glyph of a byte, with Rust
first-match semantics. -/
def get_ascii (byte : Nat) : String :=
  if byte = 0 then "•"
  else if byte = 9 then "⇥"
  else if byte = 10 then "␊"
  else if byte = 13 then "␍"
  else if byte = 32 then "␣"
  else if 32 ≤ byte ∧ byte ≤ 126 then String.singleton (Char.ofNat byte)
  else if 128 ≤ byte ∧ byte ≤ 255 then "×"
  else "▴"

/-- `util.rs` `ApplyIf::apply_if`: apply `f` only when `condition` holds. -/
def apply_if {α : Type} (x : α) (condition : Bool) (f : α → α) : α :=
  if condition then f x else x

/-- Decimal digit list of `n` (fuel-based so that it reduces in the kernel;
`fuel ≥ n` suffices). -/
def natToDecAux : Nat → Nat → List Char → List Char
  | 0, n, acc => Nat.digitChar (n % 10) :: acc
  | fuel + 1, n, acc =>
    if n < 10 then Nat.digitChar n :: acc
    else natToDecAux fuel (n / 10) (Nat.digitChar (n % 10) :: acc)

/-- Decimal representation of `n`, most significant digit first. -/
def natToDec (n : Nat) : List Char :=
  natToDecAux n n []

/-- Lowercase hexadecimal digit list of `n` (fuel-based; `fuel ≥ n`
suffices), i.e. Rust's `{:x}` formatting without padding. -/
def natToHexAux : Nat → Nat → List Char → List Char
  | 0, n, acc => Nat.digitChar (n % 16) :: acc
  | fuel + 1, n, acc =>
    if n < 16 then Nat.digitChar n :: acc
    else natToHexAux fuel (n / 16) (Nat.digitChar (n % 16) :: acc)

/-- Lowercase hexadecimal representation of `n`, most significant digit
first (`natToHex 0 = ['0']`). -/
def natToHex (n : Nat) : List Char :=
  natToHexAux n n []

/-- Wrap a string in the ANSI escape sequences produced by the `colored`
crate for a foreground color. -/
def colorize (c : Color) (s : List Char) : List Char :=
  '\x1b' :: '[' :: natToDec (colorCode c) ++ 'm' :: s ++ ['\x1b', '[', '0', 'm']

/-- Zero padding of Rust's `{:0width$x}` format: left-pad with `'0'` up to
`width` characters. -/
def padLeftZeroes (width : Nat) (digits : List Char) : List Char :=
  List.replicate (width - digits.length) '0' ++ digits

/-- `main.rs` `addr_line`: `0x`-prefixed zero-padded hex address, uppercased
on request, colored bright black when color is enabled. -/
def addr_line (addr : Nat) (trailing_zeroes : Nat) (uppercase use_color : Bool) : List Char :=
  let digits :=
    if uppercase then (natToHex addr).map Char.toUpper else natToHex addr
  apply_if ('0' :: 'x' :: padLeftZeroes trailing_zeroes digits) use_color
    (colorize Color.brightBlack)

/-- Two lowercase hex characters of one byte, as produced for this byte by
`hex::encode` in `main.rs` `hex_line`. -/
def byteToHex (b : Nat) : List Char :=
  [Nat.digitChar (b / 16), Nat.digitChar (b % 16)]

/-- Rust `[T]::join(sep)` on string fragments, for a one-character
separator. -/
def joinSep (sep : Char) : List (List Char) → List Char
  | [] => []
  | [x] => x
  | x :: xs => x ++ sep :: joinSep sep xs

/-- `main.rs` `hex_line`: hex-encode the first `bytes_read` bytes of the
buffer, two characters per byte (uppercased on request, colored by
`get_color` of the byte at the same index when color is enabled), joined
with single spaces.  `hex::encode(buff).chunks(2).take(bytes_read)` is the
per-byte encoding of `buff.take bytes_read`, which is how it is stated
here. -/
def hex_line (buff : List Nat) (bytes_read : Nat) (uppercase use_color : Bool) : List Char :=
  joinSep ' '
    ((buff.take bytes_read).map fun b =>
      apply_if (apply_if (byteToHex b) uppercase (fun l => l.map Char.toUpper))
        use_color (colorize (get_color b)))

/-- `main.rs` `ascii_line`: the concatenated glyphs of the first
`bytes_read` bytes, each colored by its classification when color is
enabled. -/
def ascii_line (buff : List Nat) (bytes_read : Nat) (use_color : Bool) : List Char :=
  ((buff.take bytes_read).map fun b =>
    apply_if (get_ascii b).data use_color (colorize (get_color b))).flatten

/-- The `SPLIT_SYMBOL` lazy static: `│`, colored bright black when color is
enabled. -/
def split_symbol (use_color : Bool) : List Char :=
  apply_if ['│'] use_color (colorize Color.brightBlack)

/-- One output line of the forward pipeline without its trailing newline:
the body of the `format!(" {} {} {}{} {} {}\n", ...)` call in
`read_binary_file`, applied to a chunk whose length is the (possibly
truncated) `bytes_read` of this iteration. -/
def formatLineCore (width bpl : Nat) (uppercase use_color : Bool)
    (addr : Nat) (chunk : List Nat) : List Char :=
  ' ' :: addr_line addr width uppercase use_color
    ++ ' ' :: split_symbol use_color
    ++ ' ' :: hex_line chunk chunk.length uppercase use_color
    ++ List.replicate ((bpl - chunk.length) * 3) ' '
    ++ ' ' :: split_symbol use_color
    ++ ' ' :: ascii_line chunk chunk.length use_color

/-- One full output line of the forward pipeline, newline included. -/
def format_output_line (width bpl : Nat) (uppercase use_color : Bool)
    (addr : Nat) (chunk : List Nat) : List Char :=
  formatLineCore width bpl uppercase use_color addr chunk ++ ['\n']

/-- The `MAX_COUNT.is_some() && total_bytes_read >= MAX_COUNT.unwrap()` break
condition of the `read_binary_file` loop. -/
def reachedMax (maxCount : Option Nat) (total : Nat) : Bool :=
  match maxCount with
  | some m => m ≤ total
  | none => false

/-- The shadowed `bytes_read` of the `read_binary_file` loop: when
`MAX_COUNT` is set and `total + bytes_read` would reach or pass it, the
effective count is truncated to `MAX_COUNT - total`; otherwise it is the
full read. -/
def effectiveCount (maxCount : Option Nat) (total len : Nat) : Nat :=
  match maxCount with
  | some m => if m ≤ total + len then m - total else len
  | none => len

/-- The chunk-producing loop of `read_binary_file`, fuel-based (one unit of
fuel per iteration; `fuel ≥ remaining.length` suffices).  Each iteration
mirrors the Rust loop body: `reader.read` yields the next `bytes_per_line`
bytes (`remaining.take bpl`); zero bytes read breaks; a running total at or
past `MAX_COUNT` breaks; the read is truncated by `effectiveCount`; one
`(address, emitted bytes)` pair is produced per line and both counters
advance by the truncated count while the reader advances by the full
read. -/
def forwardChunksAux (maxCount : Option Nat) (bpl : Nat) :
    Nat → Nat → Nat → List Nat → List (Nat × List Nat)
  | 0, _, _, _ => []
  | fuel + 1, addr, total, remaining =>
    let chunk := remaining.take bpl
    if chunk = [] then []
    else if reachedMax maxCount total then []
    else
      let bytes_read := effectiveCount maxCount total chunk.length
      (addr, chunk.take bytes_read) ::
        forwardChunksAux maxCount bpl fuel (addr + bytes_read)
          (total + bytes_read) (remaining.drop bpl)

/-- The sequence of `(address, emitted bytes)` pairs produced by the
`read_binary_file` loop on the post-seek file contents `remaining`. -/
def forwardChunks (maxCount : Option Nat) (bpl : Nat) (addr total : Nat)
    (remaining : List Nat) : List (Nat × List Nat) :=
  forwardChunksAux maxCount bpl remaining.length addr total remaining

/-- `ceil(log16 n)` as computed (over the reals) by
`(size as f64).log(16.0).ceil() as usize` in `read_binary_file`; fuel-based
(`fuel ≥ n` suffices).  Recurrence: `ceil(log16 n) = 1 + ceil(log16 ⌈n/16⌉)`
for `n ≥ 2`, and `0` for `n ≤ 1` (for `n = 0` the float computation gives
`-inf`, which `as usize` saturates to `0`). -/
def ceilLog16Aux : Nat → Nat → Nat
  | 0, _ => 0
  | fuel + 1, n =>
    if n ≤ 1 then 0 else ceilLog16Aux fuel ((n + 15) / 16) + 1

/-- The address-field width (`trailing_zeroes` in `read_binary_file`),
computed once per run from the whole file size. -/
def ceilLog16 (n : Nat) : Nat :=
  ceilLog16Aux n n

/-- The full text written (or printed) by one forward-pipeline run:
the concatenation of all formatted lines.  `start` is the seek position
(`START`), `maxCount` is `MAX_COUNT`, `bpl` is `bytes_per_line`; the
address-field width is computed once from the whole file size. -/
def read_binary_file_output (data : List Nat) (start : Nat) (maxCount : Option Nat)
    (bpl : Nat) (uppercase use_color : Bool) : List Char :=
  let width := ceilLog16 data.length
  ((forwardChunks maxCount bpl start 0 (data.drop start)).map fun pr =>
    format_output_line width bpl uppercase use_color pr.1 pr.2).flatten

/-- A flat model of the file system: an association list from paths to file
contents; a write prepends, a lookup takes the first match. -/
abbrev FS (α : Type) : Type := List (String × α)

/-- Write (create or overwrite) a file. -/
def fsWrite {α : Type} (fs : FS α) (path : String) (contents : α) : FS α :=
  (path, contents) :: fs

/-- The forward pipeline with `--output`: the writer is opened with
`File::create_new`, which fails (`AlreadyExists`, modelled as `none`) when
the path is already present; color is disabled for file output
(`USE_COLOR = ARGS.output.is_none()`). -/
def read_binary_file_fs (fs : FS (List Char)) (data : List Nat) (start : Nat)
    (maxCount : Option Nat) (bpl : Nat) (uppercase : Bool) (outPath : String) :
    Option (FS (List Char)) :=
  match List.lookup outPath fs with
  | some _ => none
  | none =>
    some (fsWrite fs outPath (read_binary_file_output data start maxCount bpl uppercase false))

/-- The value of one hex character as decoded by `hex::decode`. -/
def hexVal (c : Char) : Option Nat :=
  if '0' ≤ c ∧ c ≤ '9' then some (c.toNat - 48)
  else if 'a' ≤ c ∧ c ≤ 'f' then some (c.toNat - 87)
  else if 'A' ≤ c ∧ c ≤ 'F' then some (c.toNat - 55)
  else none

/-- `hex::decode`: an even number of hex characters decoded pairwise to
bytes; odd length or a non-hex character fails. -/
def hexDecode : List Char → Option (List Nat)
  | [] => some []
  | [_] => none
  | a :: b :: rest =>
    match hexVal a, hexVal b, hexDecode rest with
    | some hi, some lo, some tl => some ((16 * hi + lo) :: tl)
    | _, _, _ => none

/-- The two fatal reverse-pipeline errors of `reverse_operation`, each
carrying the reported 1-based line number (`index + 1`); `badHex` also
carries the offending space-stripped hex text, as printed by the error
message. -/
inductive RevError where
  | badFormat (lineNo : Nat)
  | badHex (lineNo : Nat) (text : List Char)
deriving DecidableEq, Repr

/-- Field extraction of `reverse_operation`: trim the line, split on the
raw separator `│`, then use the whole line when there is one field, the
second field when there are two or three, and fail otherwise. -/
def extractHexField (line : List Char) : Option (List Char) :=
  match splitSep '│' (rustTrim line) with
  | [p] => some p
  | [_, p] => some p
  | [_, p, _] => some p
  | _ => none

/-- Decoding of a single reverse-pipeline line to bytes: extract the hex
field, strip every space (`replace(" ", "")`), and hex-decode. -/
def decodeLineBytes (line : List Char) : Option (List Nat) :=
  match extractHexField line with
  | none => none
  | some payload => hexDecode (payload.filter fun c => c != ' ')

/-- The line loop of `reverse_operation`: decode every line in order into
one byte buffer; the first failure aborts the whole run with the 1-based
line number (`idx` is the 0-based index of the first line of the list). -/
def decodeLines (idx : Nat) : List (List Char) → Except RevError (List Nat)
  | [] => .ok []
  | line :: rest =>
    match extractHexField line with
    | none => .error (.badFormat (idx + 1))
    | some payload =>
      match hexDecode (payload.filter fun c => c != ' ') with
      | none => .error (.badHex (idx + 1) (payload.filter fun c => c != ' '))
      | some bytes =>
        match decodeLines (idx + 1) rest with
        | .error e => .error e
        | .ok tl => .ok (bytes ++ tl)

/-- Rust `BufRead::lines`: split the input on `'\n'`, drop the trailing
empty fragment produced by a final newline, and strip one trailing `'\r'`
from each line. -/
def rustLines (s : List Char) : List (List Char) :=
  let parts := splitSep '\n' s
  let parts := if parts.getLast? = some [] then parts.dropLast else parts
  parts.map fun l => if l.getLast? = some '\r' then l.dropLast else l

/-- `main.rs` `reverse_operation` on the input file contents `input`:
decode all lines into memory; on the first failure the process exits
before any output file is touched (the file system is returned unchanged);
on success the output file is opened with `File::create` — which truncates
and overwrites an existing file — and the decoded bytes are written. -/
def reverse_operation (fs : FS (List Nat)) (input : List Char) (outPath : String) :
    Option RevError × FS (List Nat) :=
  match decodeLines 0 (rustLines input) with
  | .error e => (some e, fs)
  | .ok bytes => (none, fsWrite fs outPath bytes)

/-! ## Basic lemmas about splitting, trimming, and characters -/

lemma splitSep_eq_single (sep : Char) (a : List Char) (h : sep ∉ a) :
    splitSep sep a = [a] := by
  induction a with
  | nil => rfl
  | cons c rest ih =>
    have hc : ¬ c = sep := fun e => h (e ▸ List.mem_cons_self c rest)
    have hrest : sep ∉ rest := fun m => h (List.mem_cons_of_mem _ m)
    rw [splitSep, if_neg hc, ih hrest]

lemma splitSep_append (sep : Char) (a rest : List Char) (h : sep ∉ a) :
    splitSep sep (a ++ sep :: rest) = a :: splitSep sep rest := by
  induction a with
  | nil => simp [splitSep]
  | cons c a' ih =>
    have hc : ¬ c = sep := fun e => h (e ▸ List.mem_cons_self c a')
    have ha' : sep ∉ a' := fun m => h (List.mem_cons_of_mem _ m)
    rw [List.cons_append, splitSep, if_neg hc, ih ha']

lemma dropWhile_eq_self {p : Char → Bool} {l : List Char}
    (h : ∀ c, l.head? = some c → p c = false) : List.dropWhile p l = l := by
  cases l with
  | nil => rfl
  | cons c rest => rw [List.dropWhile_cons, h c rfl]; simp

lemma dropRightWhile_eq_self {p : Char → Bool} {l : List Char}
    (h : ∀ c, l.getLast? = some c → p c = false) : dropRightWhile p l = l := by
  unfold dropRightWhile
  cases hr : l.reverse with
  | nil => simp [List.reverse_eq_nil_iff.mp hr]
  | cons d tail =>
    have hd : l.getLast? = some d := by
      rw [← List.head?_reverse, hr]; rfl
    rw [List.dropWhile_cons, h d hd]
    simp [← hr]

lemma rustTrim_eq_self {l : List Char}
    (h1 : ∀ c, l.head? = some c → rustIsWhitespace c = false)
    (h2 : ∀ c, l.getLast? = some c → rustIsWhitespace c = false) :
    rustTrim l = l := by
  unfold rustTrim
  rw [dropWhile_eq_self h1, dropRightWhile_eq_self h2]

lemma rustTrim_cons_space (l : List Char) : rustTrim (' ' :: l) = rustTrim l := by
  unfold rustTrim
  rw [List.dropWhile_cons, if_pos (by decide : rustIsWhitespace ' ' = true)]

lemma ne_of_not_whitespace {c : Char} (h : rustIsWhitespace c = false) :
    c ≠ '\n' ∧ c ≠ '\r' ∧ c ≠ ' ' := by
  refine ⟨fun e => ?_, fun e => ?_, fun e => ?_⟩ <;>
    (subst e; exact absurd h (by decide))

lemma digitChar_star (n : Nat) (h : 16 ≤ n) : Nat.digitChar n = '*' := by
  unfold Nat.digitChar
  repeat rw [if_neg]
  all_goals omega

lemma digitChar_plain (n : Nat) :
    rustIsWhitespace (Nat.digitChar n) = false ∧ Nat.digitChar n ≠ '│' := by
  rcases Nat.lt_or_ge n 16 with h | h
  · exact (by decide :
      ∀ m : Nat, m < 16 → rustIsWhitespace (Nat.digitChar m) = false ∧ Nat.digitChar m ≠ '│') n h
  · rw [digitChar_star n h]
    decide

lemma digitChar_hexVal : ∀ d : Nat, d < 16 → hexVal (Nat.digitChar d) = some d := by
  decide

lemma get_ascii_plain : ∀ b : Nat, b < 256 →
    (get_ascii b).data.length = 1 ∧
    ∀ c ∈ (get_ascii b).data, rustIsWhitespace c = false ∧ c ≠ '│' := by
  decide

/-! ## Hex encoding / decoding lemmas -/

lemma joinSep_cons_cons (sep : Char) (p q : List Char) (qs : List (List Char)) :
    joinSep sep (p :: q :: qs) = p ++ sep :: joinSep sep (q :: qs) := rfl

lemma joinSep_mem {sep c : Char} {pieces : List (List Char)}
    (hc : c ∈ joinSep sep pieces) : c = sep ∨ ∃ p ∈ pieces, c ∈ p := by
  induction pieces with
  | nil => simp [joinSep] at hc
  | cons p ps ih =>
    cases ps with
    | nil =>
      simp only [joinSep] at hc
      exact Or.inr ⟨p, List.mem_cons_self p [], hc⟩
    | cons q qs =>
      rw [joinSep_cons_cons] at hc
      rcases List.mem_append.mp hc with h | h
      · exact Or.inr ⟨p, List.mem_cons_self p _, h⟩
      · rcases List.mem_cons.mp h with h | h
        · exact Or.inl h
        · rcases ih h with h | ⟨r, hr, hcr⟩
          · exact Or.inl h
          · exact Or.inr ⟨r, List.mem_cons_of_mem _ hr, hcr⟩

lemma joinSep_filter_space (pieces : List (List Char))
    (h : ∀ p ∈ pieces, ∀ c ∈ p, (c != ' ') = true) :
    (joinSep ' ' pieces).filter (fun c => c != ' ') = pieces.flatten := by
  induction pieces with
  | nil => rfl
  | cons p ps ih =>
    have hp : ∀ c ∈ p, (c != ' ') = true := h p (List.mem_cons_self p ps)
    cases ps with
    | nil =>
      simp only [joinSep, List.flatten_cons, List.flatten_nil, List.append_nil]
      exact List.filter_eq_self.mpr hp
    | cons q qs =>
      rw [joinSep_cons_cons, List.filter_append, List.filter_cons]
      have : ((' ' : Char) != ' ') = false := by decide
      rw [this]
      simp only [Bool.false_eq_true, if_false]
      rw [List.filter_eq_self.mpr hp,
        ih (fun r hr => h r (List.mem_cons_of_mem _ hr))]
      simp [List.flatten_cons]

lemma joinSep_length_of_pieces (pieces : List (List Char))
    (h : ∀ p ∈ pieces, p.length = 2) (hne : pieces ≠ []) :
    (joinSep ' ' pieces).length = 3 * pieces.length - 1 := by
  induction pieces with
  | nil => exact absurd rfl hne
  | cons p ps ih =>
    have hp : p.length = 2 := h p (List.mem_cons_self p ps)
    cases ps with
    | nil => simp [joinSep, hp]
    | cons q qs =>
      rw [joinSep_cons_cons, List.length_append, List.length_cons,
        ih (fun r hr => h r (List.mem_cons_of_mem _ hr)) (by simp), hp]
      have : 1 ≤ (q :: qs).length := by simp
      simp only [List.length_cons] at *
      omega

lemma byteToHex_length (b : Nat) : (byteToHex b).length = 2 := rfl

lemma byteToHex_mem {b : Nat} {c : Char} (hc : c ∈ byteToHex b) :
    ∃ d, c = Nat.digitChar d := by
  rcases List.mem_cons.mp hc with h | h
  · exact ⟨b / 16, h⟩
  · rcases List.mem_cons.mp h with h | h
    · exact ⟨b % 16, h⟩
    · simp at h

lemma hexDecode_flatten_byteToHex (chunk : List Nat) (h : ∀ b ∈ chunk, b < 256) :
    hexDecode (chunk.map byteToHex).flatten = some chunk := by
  induction chunk with
  | nil => rfl
  | cons b rest ih =>
    have hb : b < 256 := h b (List.mem_cons_self b rest)
    have h1 : b / 16 < 16 := by omega
    have h2 : b % 16 < 16 := by omega
    rw [List.map_cons, List.flatten_cons]
    show hexDecode (Nat.digitChar (b / 16) :: Nat.digitChar (b % 16) ::
      (rest.map byteToHex).flatten) = some (b :: rest)
    rw [hexDecode, digitChar_hexVal _ h1, digitChar_hexVal _ h2,
      ih (fun x hx => h x (List.mem_cons_of_mem _ hx))]
    show some ((16 * (b / 16) + b % 16) :: rest) = some (b :: rest)
    have : 16 * (b / 16) + b % 16 = b := by omega
    rw [this]

/-! ## Shape of the plain (uncolored, lowercase) output line -/

lemma split_symbol_plain : split_symbol false = ['│'] := rfl

lemma addr_line_plain (addr w : Nat) :
    addr_line addr w false false = '0' :: 'x' :: padLeftZeroes w (natToHex addr) := rfl

lemma hex_line_plain (buff : List Nat) (k : Nat) :
    hex_line buff k false false = joinSep ' ' ((buff.take k).map byteToHex) := by
  simp [hex_line, apply_if]

lemma ascii_line_plain (buff : List Nat) (k : Nat) :
    ascii_line buff k false = ((buff.take k).map fun b => (get_ascii b).data).flatten := by
  simp [ascii_line, apply_if]

lemma natToHexAux_mem :
    ∀ (fuel n : Nat) (acc : List Char) (c : Char), c ∈ natToHexAux fuel n acc →
      (∃ d, c = Nat.digitChar d) ∨ c ∈ acc := by
  intro fuel
  induction fuel with
  | zero =>
    intro n acc c hc
    rw [natToHexAux] at hc
    rcases List.mem_cons.mp hc with h | h
    · exact Or.inl ⟨n % 16, h⟩
    · exact Or.inr h
  | succ f ih =>
    intro n acc c hc
    rw [natToHexAux] at hc
    by_cases hn : n < 16
    · rw [if_pos hn] at hc
      rcases List.mem_cons.mp hc with h | h
      · exact Or.inl ⟨n, h⟩
      · exact Or.inr h
    · rw [if_neg hn] at hc
      rcases ih _ _ _ hc with h | h
      · exact Or.inl h
      · rcases List.mem_cons.mp h with h | h
        · exact Or.inl ⟨n % 16, h⟩
        · exact Or.inr h

lemma natToHex_mem {n : Nat} {c : Char} (hc : c ∈ natToHex n) :
    ∃ d, c = Nat.digitChar d := by
  rcases natToHexAux_mem n n [] c hc with h | h
  · exact h
  · simp at h

lemma natToHexAux_length :
    ∀ (fuel n : Nat) (acc : List Char) (w : Nat), 1 ≤ w → n < 16 ^ w →
      (natToHexAux fuel n acc).length ≤ w + acc.length := by
  intro fuel
  induction fuel with
  | zero =>
    intro n acc w hw _
    rw [natToHexAux, List.length_cons]
    omega
  | succ f ih =>
    intro n acc w hw hn
    rw [natToHexAux]
    by_cases h16 : n < 16
    · rw [if_pos h16, List.length_cons]
      omega
    · rw [if_neg h16]
      have hw2 : 2 ≤ w := by
        by_contra hcon
        have : w = 1 := by omega
        subst this
        simp at hn
        omega
      have hdiv : n / 16 < 16 ^ (w - 1) := by
        have h1 : 16 ^ w = 16 ^ (w - 1) * 16 := by
          rw [← pow_succ]
          congr 1
          omega
        rw [Nat.div_lt_iff_lt_mul (by norm_num : 0 < 16), ← h1]
        exact hn
      have := ih (n / 16) (Nat.digitChar (n % 16) :: acc) (w - 1) (by omega) hdiv
      rw [List.length_cons] at this
      omega

lemma natToHex_length {n w : Nat} (hw : 1 ≤ w) (hn : n < 16 ^ w) :
    (natToHex n).length ≤ w := by
  have := natToHexAux_length n n [] w hw hn
  simpa using this

lemma padLeftZeroes_length (w : Nat) (digits : List Char) (h : digits.length ≤ w) :
    (padLeftZeroes w digits).length = w := by
  rw [padLeftZeroes, List.length_append, List.length_replicate]
  omega

lemma addr_line_plain_length {addr w : Nat} (hw : 1 ≤ w) (haddr : addr < 16 ^ w) :
    (addr_line addr w false false).length = 2 + w := by
  rw [addr_line_plain, List.length_cons, List.length_cons,
    padLeftZeroes_length w _ (natToHex_length hw haddr)]
  omega

/-! ## Character classes of the fields of a plain output line -/

lemma addr_line_chars {addr w : Nat} {c : Char}
    (hc : c ∈ addr_line addr w false false) :
    rustIsWhitespace c = false ∧ c ≠ '│' := by
  rw [addr_line_plain] at hc
  rcases List.mem_cons.mp hc with h | h
  · subst h; decide
  · rcases List.mem_cons.mp h with h | h
    · subst h; decide
    · rw [padLeftZeroes] at h
      rcases List.mem_append.mp h with h | h
      · rw [List.eq_of_mem_replicate h]; decide
      · rcases natToHex_mem h with ⟨d, hd⟩
        rw [hd]; exact digitChar_plain d

lemma hex_line_chars {chunk : List Nat} {k : Nat} {c : Char}
    (hc : c ∈ hex_line chunk k false false) :
    c = ' ' ∨ (rustIsWhitespace c = false ∧ c ≠ '│') := by
  rw [hex_line_plain] at hc
  rcases joinSep_mem hc with h | ⟨p, hp, hcp⟩
  · exact Or.inl h
  · rcases List.mem_map.mp hp with ⟨b, _, hb⟩
    subst hb
    rcases byteToHex_mem hcp with ⟨d, hd⟩
    rw [hd]
    exact Or.inr (digitChar_plain d)

lemma ascii_line_chars {chunk : List Nat} {k : Nat} {c : Char}
    (hb : ∀ b ∈ chunk, b < 256) (hc : c ∈ ascii_line chunk k false) :
    rustIsWhitespace c = false ∧ c ≠ '│' := by
  rw [ascii_line_plain] at hc
  rcases List.mem_flatten.mp hc with ⟨l, hl, hcl⟩
  rcases List.mem_map.mp hl with ⟨b, hbmem, hbl⟩
  subst hbl
  have hb256 : b < 256 := hb b (List.mem_of_mem_take hbmem)
  exact (get_ascii_plain b hb256).2 c hcl

/-! ## Decoding one formatted plain line recovers its chunk -/

lemma filter_replicate_space (n : Nat) :
    (List.replicate n ' ').filter (fun c => c != ' ') = [] := by
  induction n with
  | zero => rfl
  | succ m ih =>
    rw [List.replicate_succ, List.filter_cons]
    have : ((' ' : Char) != ' ') = false := by decide
    rw [this]
    simp only [Bool.false_eq_true, if_false]
    exact ih

lemma ascii_line_concat (chunk : List Nat) (hne : chunk ≠ [])
    (hb : ∀ b ∈ chunk, b < 256) :
    ∃ Sinit g, ascii_line chunk chunk.length false = Sinit ++ [g] ∧
      rustIsWhitespace g = false ∧ g ≠ '│' := by
  have hlast256 : chunk.getLast hne < 256 := hb _ (List.getLast_mem hne)
  obtain ⟨g, hg⟩ := List.length_eq_one.mp (get_ascii_plain (chunk.getLast hne) hlast256).1
  have hgmem : g ∈ (get_ascii (chunk.getLast hne)).data := by
    rw [hg]; exact List.mem_cons_self g []
  refine ⟨((chunk.dropLast).map fun b => (get_ascii b).data).flatten, g, ?_, ?_, ?_⟩
  · rw [ascii_line_plain, List.take_length]
    conv_lhs => rw [← List.dropLast_append_getLast hne]
    rw [List.map_append, List.flatten_append]
    simp [hg]
  · exact ((get_ascii_plain _ hlast256).2 g hgmem).1
  · exact ((get_ascii_plain _ hlast256).2 g hgmem).2

lemma extractHexField_format (w bpl addr : Nat) (chunk : List Nat)
    (hne : chunk ≠ []) (hb : ∀ b ∈ chunk, b < 256) :
    extractHexField (formatLineCore w bpl false false addr chunk) =
      some (' ' :: (hex_line chunk chunk.length false false
        ++ List.replicate ((bpl - chunk.length) * 3) ' ' ++ [' '])) := by
  obtain ⟨Sinit, g, hS, hgws, hgsep⟩ := ascii_line_concat chunk hne hb
  have hA := addr_line_plain addr w
  set A := addr_line addr w false false with hAdef
  set H := hex_line chunk chunk.length false false with hHdef
  set P := List.replicate ((bpl - chunk.length) * 3) ' ' with hPdef
  set S := ascii_line chunk chunk.length false with hSdef
  have hline : formatLineCore w bpl false false addr chunk =
      ' ' :: ((A ++ [' ']) ++ '│' :: ((' ' :: (H ++ P ++ [' '])) ++ '│' :: (' ' :: S))) := by
    rw [formatLineCore, split_symbol_plain]
    simp [List.append_assoc]
  have hF0 : '│' ∉ A ++ [' '] := by
    intro hmem
    rcases List.mem_append.mp hmem with h | h
    · exact (addr_line_chars h).2 rfl
    · simp at h
  have hM : '│' ∉ ' ' :: (H ++ P ++ [' ']) := by
    intro hmem
    rcases List.mem_cons.mp hmem with h | h
    · exact absurd h (by decide)
    · rcases List.mem_append.mp h with h | h
      · rcases List.mem_append.mp h with h | h
        · rcases hex_line_chars h with h | h
          · exact absurd h (by decide)
          · exact h.2 rfl
        · exact absurd (List.eq_of_mem_replicate h) (by decide)
      · simp at h
  have hF2 : '│' ∉ ' ' :: S := by
    intro hmem
    rcases List.mem_cons.mp hmem with h | h
    · exact absurd h (by decide)
    · exact (ascii_line_chars hb h).2 rfl
  have htrim : rustTrim (formatLineCore w bpl false false addr chunk) =
      (A ++ [' ']) ++ '│' :: ((' ' :: (H ++ P ++ [' '])) ++ '│' :: (' ' :: S)) := by
    rw [hline, rustTrim_cons_space]
    apply rustTrim_eq_self
    · intro c hc
      rw [hA] at hc
      simp only [List.cons_append, List.head?_cons] at hc
      cases hc
      decide
    · intro c hc
      have hshape : (A ++ [' ']) ++ '│' :: ((' ' :: (H ++ P ++ [' '])) ++ '│' :: (' ' :: S)) =
          ((A ++ [' ']) ++ '│' :: ((' ' :: (H ++ P ++ [' '])) ++ '│' :: (' ' :: Sinit))) ++ [g] := by
        rw [hS]
        simp [List.append_assoc]
      rw [hshape, List.getLast?_concat] at hc
      cases hc
      exact hgws
  rw [extractHexField, htrim, splitSep_append _ _ _ hF0, splitSep_append _ _ _ hM,
    splitSep_eq_single _ _ hF2]

lemma decodeLineBytes_format (w bpl addr : Nat) (chunk : List Nat)
    (hne : chunk ≠ []) (hb : ∀ b ∈ chunk, b < 256) :
    decodeLineBytes (formatLineCore w bpl false false addr chunk) = some chunk := by
  rw [decodeLineBytes, extractHexField_format w bpl addr chunk hne hb]
  show hexDecode ((' ' :: (hex_line chunk chunk.length false false
    ++ List.replicate ((bpl - chunk.length) * 3) ' ' ++ [' '])).filter (fun c => c != ' '))
    = some chunk
  have hfilter : (' ' :: (hex_line chunk chunk.length false false
      ++ List.replicate ((bpl - chunk.length) * 3) ' ' ++ [' '])).filter (fun c => c != ' ')
      = (chunk.map byteToHex).flatten := by
    rw [List.filter_cons]
    have hsp : ((' ' : Char) != ' ') = false := by decide
    rw [hsp]
    simp only [Bool.false_eq_true, if_false]
    rw [List.filter_append, List.filter_append, filter_replicate_space,
      hex_line_plain, List.take_length]
    have hpieces : ∀ p ∈ chunk.map byteToHex, ∀ c ∈ p, (c != ' ') = true := by
      intro p hp c hc
      rcases List.mem_map.mp hp with ⟨b, _, hbp⟩
      subst hbp
      rcases byteToHex_mem hc with ⟨d, hd⟩
      subst hd
      have := (ne_of_not_whitespace (digitChar_plain d).1).2.2
      simpa [bne_iff_ne] using this
    rw [joinSep_filter_space _ hpieces]
    simp
  rw [hfilter, hexDecode_flatten_byteToHex chunk hb]

/-! ## The forward loop and full-run round trip -/

lemma forwardChunksAux_nil_rem (mc : Option Nat) (bpl f addr total : Nat) :
    forwardChunksAux mc bpl f addr total [] = [] := by
  cases f with
  | zero => rfl
  | succ g =>
    rw [forwardChunksAux]
    simp

lemma forwardChunksAux_none_step (bpl f addr total : Nat) (r : Nat) (rs : List Nat)
    (hch : (r :: rs).take bpl ≠ []) :
    forwardChunksAux none bpl (f + 1) addr total (r :: rs) =
      (addr, (r :: rs).take bpl) ::
        forwardChunksAux none bpl f (addr + ((r :: rs).take bpl).length)
          (total + ((r :: rs).take bpl).length) ((r :: rs).drop bpl) := by
  rw [forwardChunksAux.eq_def]
  dsimp only
  rw [if_neg hch, if_neg (show ¬ reachedMax none total = true by simp [reachedMax])]
  rw [show effectiveCount none total ((r :: rs).take bpl).length
    = ((r :: rs).take bpl).length from rfl]
  rw [List.take_length]

lemma forwardChunksAux_some_step (m bpl f addr total : Nat) (r : Nat) (rs : List Nat)
    (hch : (r :: rs).take bpl ≠ []) (hm : ¬ m ≤ total) :
    forwardChunksAux (some m) bpl (f + 1) addr total (r :: rs) =
      (addr, ((r :: rs).take bpl).take (effectiveCount (some m) total ((r :: rs).take bpl).length)) ::
        forwardChunksAux (some m) bpl f
          (addr + effectiveCount (some m) total ((r :: rs).take bpl).length)
          (total + effectiveCount (some m) total ((r :: rs).take bpl).length)
          ((r :: rs).drop bpl) := by
  rw [forwardChunksAux.eq_def]
  dsimp only
  rw [if_neg hch, if_neg (show ¬ reachedMax (some m) total = true by simpa [reachedMax] using hm)]

lemma forwardChunksAux_reached (m bpl fuel addr total : Nat) (rem : List Nat)
    (hm : m ≤ total) :
    forwardChunksAux (some m) bpl fuel addr total rem = [] := by
  cases fuel with
  | zero => rfl
  | succ f =>
    rw [forwardChunksAux.eq_def]
    dsimp only
    by_cases hch : rem.take bpl = []
    · rw [if_pos hch]
    · rw [if_neg hch, if_pos (show reachedMax (some m) total = true by simpa [reachedMax])]

lemma decodeLines_cons_of_some (idx : Nat) (line : List Char) (rest : List (List Char))
    (bytes : List Nat) (h : decodeLineBytes line = some bytes) :
    decodeLines idx (line :: rest) =
      match decodeLines (idx + 1) rest with
      | .error e => .error e
      | .ok tl => .ok (bytes ++ tl) := by
  rw [decodeLineBytes] at h
  cases he : extractHexField line with
  | none =>
    rw [he] at h
    exact absurd h (by simp)
  | some payload =>
    rw [he] at h
    dsimp only at h
    rw [decodeLines, he]
    dsimp only
    rw [h]

lemma forwardChunksAux_mem_subset (mc : Option Nat) (bpl : Nat) :
    ∀ (fuel addr total : Nat) (rem : List Nat) (pr : Nat × List Nat),
      pr ∈ forwardChunksAux mc bpl fuel addr total rem → ∀ b ∈ pr.2, b ∈ rem := by
  intro fuel
  induction fuel with
  | zero =>
    intro addr total rem pr hpr
    exact absurd hpr (by simp [forwardChunksAux])
  | succ f ih =>
    intro addr total rem pr hpr
    rw [forwardChunksAux.eq_def] at hpr
    dsimp only at hpr
    by_cases hch : rem.take bpl = []
    · rw [if_pos hch] at hpr
      simp at hpr
    · rw [if_neg hch] at hpr
      by_cases hreach : reachedMax mc total = true
      · rw [if_pos hreach] at hpr
        simp at hpr
      · rw [if_neg hreach] at hpr
        rcases List.mem_cons.mp hpr with rfl | hpr
        · exact fun b hb => List.mem_of_mem_take (List.mem_of_mem_take hb)
        · exact fun b hb => List.mem_of_mem_drop (ih _ _ _ _ hpr b hb)

lemma take_cons_ne_nil (r : Nat) (rs : List Nat) (bpl : Nat) (hbpl : 1 ≤ bpl) :
    (r :: rs).take bpl ≠ [] := by
  cases bpl with
  | zero => omega
  | succ k => simp

lemma decodeLines_forwardChunksAux (bpl w : Nat) (hbpl : 1 ≤ bpl) :
    ∀ (fuel : Nat) (rem : List Nat) (addr total idx : Nat),
      rem.length ≤ fuel → (∀ b ∈ rem, b < 256) →
      decodeLines idx ((forwardChunksAux none bpl fuel addr total rem).map
        (fun pr => formatLineCore w bpl false false pr.1 pr.2)) = .ok rem := by
  intro fuel
  induction fuel with
  | zero =>
    intro rem addr total idx hlen _
    have hnil : rem = [] := List.eq_nil_of_length_eq_zero (Nat.le_zero.mp hlen)
    subst hnil
    rfl
  | succ f ih =>
    intro rem addr total idx hlen hb
    cases rem with
    | nil =>
      rw [forwardChunksAux_nil_rem]
      rfl
    | cons r rs =>
      have hchunk_ne := take_cons_ne_nil r rs bpl hbpl
      rw [forwardChunksAux_none_step bpl f addr total r rs hchunk_ne, List.map_cons]
      have hchunk_b : ∀ b ∈ (r :: rs).take bpl, b < 256 :=
        fun b hb' => hb b (List.mem_of_mem_take hb')
      rw [decodeLines_cons_of_some _ _ _ _
        (decodeLineBytes_format w bpl addr _ hchunk_ne hchunk_b)]
      rw [ih ((r :: rs).drop bpl) _ _ (idx + 1)
        (by simp only [List.length_drop, List.length_cons] at *; omega)
        (fun b hb' => hb b (List.mem_of_mem_drop hb'))]
      exact congrArg Except.ok (List.take_append_drop bpl (r :: rs))

lemma splitSep_newline_flatten (lines : List (List Char))
    (h : ∀ l ∈ lines, ('\n' : Char) ∉ l) :
    splitSep '\n' ((lines.map fun l => l ++ ['\n']).flatten) = lines ++ [[]] := by
  induction lines with
  | nil => rfl
  | cons l ls ih =>
    rw [List.map_cons, List.flatten_cons]
    have hassoc : (l ++ ['\n']) ++ (ls.map fun l => l ++ ['\n']).flatten
        = l ++ '\n' :: (ls.map fun l => l ++ ['\n']).flatten := by
      simp
    rw [hassoc, splitSep_append _ _ _ (h l (List.mem_cons_self l ls)),
      ih (fun r hr => h r (List.mem_cons_of_mem _ hr))]
    rfl

lemma rustLines_of_flatten (lines : List (List Char))
    (h : ∀ l ∈ lines, ∀ c ∈ l, c ≠ '\n' ∧ c ≠ '\r') :
    rustLines ((lines.map fun l => l ++ ['\n']).flatten) = lines := by
  unfold rustLines
  rw [splitSep_newline_flatten lines (fun l hl hc => (h l hl _ hc).1 rfl)]
  dsimp only
  rw [List.getLast?_concat, if_pos rfl, List.dropLast_concat]
  conv_rhs => rw [← List.map_id lines]
  apply List.map_congr_left
  intro l hl
  have hne : ¬ l.getLast? = some '\r' := by
    intro he
    have hmem : '\r' ∈ l := by
      obtain ⟨hne2, heq⟩ := List.mem_getLast?_eq_getLast (l := l) (x := '\r') he
      rw [heq]
      exact List.getLast_mem hne2
    exact (h l hl '\r' hmem).2 rfl
  rw [if_neg hne]
  rfl

lemma formatLineCore_no_newline {w bpl addr : Nat} {chunk : List Nat}
    (hb : ∀ b ∈ chunk, b < 256) :
    ∀ c ∈ formatLineCore w bpl false false addr chunk, c ≠ '\n' ∧ c ≠ '\r' := by
  have key : ∀ x : Char, (rustIsWhitespace x = false ∨ x = ' ' ∨ x = '│') →
      x ≠ '\n' ∧ x ≠ '\r' := by
    intro x hx
    rcases hx with hx | rfl | rfl
    · exact ⟨(ne_of_not_whitespace hx).1, (ne_of_not_whitespace hx).2.1⟩
    · decide
    · decide
  intro c hc
  rw [formatLineCore, split_symbol_plain] at hc
  simp only [List.append_assoc, List.cons_append, List.singleton_append, List.nil_append,
    List.mem_cons, List.mem_append] at hc
  rcases hc with rfl | hc
  · exact key _ (Or.inr (Or.inl rfl))
  rcases hc with hc | hc
  · exact key _ (Or.inl (addr_line_chars hc).1)
  rcases hc with rfl | hc
  · exact key _ (Or.inr (Or.inl rfl))
  rcases hc with rfl | hc
  · exact key _ (Or.inr (Or.inr rfl))
  rcases hc with rfl | hc
  · exact key _ (Or.inr (Or.inl rfl))
  rcases hc with hc | hc
  · rcases hex_line_chars hc with h1 | h1
    · exact key _ (Or.inr (Or.inl h1))
    · exact key _ (Or.inl h1.1)
  rcases hc with hc | hc
  · exact key _ (Or.inr (Or.inl (List.eq_of_mem_replicate hc)))
  rcases hc with rfl | hc
  · exact key _ (Or.inr (Or.inl rfl))
  rcases hc with rfl | hc
  · exact key _ (Or.inr (Or.inr rfl))
  rcases hc with rfl | hc
  · exact key _ (Or.inr (Or.inl rfl))
  · exact key _ (Or.inl (ascii_line_chars hb hc).1)

lemma read_binary_file_output_eq (data : List Nat) (start : Nat) (mc : Option Nat)
    (bpl : Nat) :
    read_binary_file_output data start mc bpl false false =
      (((forwardChunks mc bpl start 0 (data.drop start)).map fun pr =>
        formatLineCore (ceilLog16 data.length) bpl false false pr.1 pr.2).map
        (fun l => l ++ ['\n'])).flatten := by
  simp only [read_binary_file_output, format_output_line, List.map_map]
  rfl

/-- C1: For every byte sequence written as the input file, running the
forward pipeline over the whole file (no range, no skip/length, so `START`
is 0 and `MAX_COUNT` is unset) with plain uncolored file output, and then
running the reverse pipeline on that dump, reproduces the original byte
sequence exactly (the output file holds exactly the original bytes and no
error is reported). -/
theorem forward_reverse_round_trip (data : List Nat) (bpl : Nat)
    (fs : FS (List Nat)) (out : String)
    (hbpl : 1 ≤ bpl) (hdata : ∀ b ∈ data, b < 256) :
    reverse_operation fs
      (read_binary_file_output data (resolveStart none none) (resolveMaxCount none none)
        bpl false false) out = (none, fsWrite fs out data) := by
  have h1 : resolveStart none none = 0 := rfl
  have h2 : resolveMaxCount none none = none := rfl
  rw [h1, h2, read_binary_file_output_eq, List.drop_zero]
  have hchars : ∀ l ∈ (forwardChunks none bpl 0 0 data).map
      (fun pr => formatLineCore (ceilLog16 data.length) bpl false false pr.1 pr.2),
      ∀ c ∈ l, c ≠ '\n' ∧ c ≠ '\r' := by
    intro l hl c hc
    rcases List.mem_map.mp hl with ⟨pr, hpr, rfl⟩
    have hbpr : ∀ b ∈ pr.2, b < 256 := fun b hbm =>
      hdata b (forwardChunksAux_mem_subset none bpl data.length 0 0 data pr hpr b hbm)
    exact formatLineCore_no_newline hbpr c hc
  rw [reverse_operation, rustLines_of_flatten _ hchars, forwardChunks,
    decodeLines_forwardChunksAux bpl (ceilLog16 data.length) hbpl data.length data 0 0 0
      le_rfl hdata]

/-- Concrete instance of the round-trip theorem on the spec scenario bytes
`[0x41, 0x42, 0x0A]` with the default 16 bytes per line. -/
theorem forward_reverse_round_trip_witness :
    1 ≤ 16 ∧ (∀ b ∈ [65, 66, 10], b < 256) ∧
    reverse_operation []
      (read_binary_file_output [65, 66, 10] (resolveStart none none) (resolveMaxCount none none)
        16 false false) ("out") = (none, fsWrite [] ("out") [65, 66, 10]) :=
  ⟨by decide, by decide,
    forward_reverse_round_trip [65, 66, 10] 16 [] ("out") (by decide) (by decide)⟩

/-! ## Address-field width -/

lemma ceilLog16Aux_le : ∀ (fuel n : Nat), n ≤ fuel → n ≤ 16 ^ ceilLog16Aux fuel n := by
  intro fuel
  induction fuel with
  | zero =>
    intro n hn
    have hn0 : n = 0 := by omega
    subst hn0
    exact Nat.zero_le _
  | succ f ih =>
    intro n hn
    rw [ceilLog16Aux]
    by_cases h1 : n ≤ 1
    · rw [if_pos h1]
      simpa using h1
    · rw [if_neg h1]
      have hm_lt : (n + 15) / 16 < n := by omega
      have hm_le : (n + 15) / 16 ≤ f := by omega
      have hdm := Nat.div_add_mod (n + 15) 16
      have hmod : (n + 15) % 16 < 16 := Nat.mod_lt _ (by norm_num)
      have hn16 : n ≤ 16 * ((n + 15) / 16) := by omega
      calc n ≤ 16 * ((n + 15) / 16) := hn16
        _ ≤ 16 * 16 ^ ceilLog16Aux f ((n + 15) / 16) :=
          Nat.mul_le_mul_left 16 (ih _ hm_le)
        _ = 16 ^ (ceilLog16Aux f ((n + 15) / 16) + 1) := by rw [pow_succ, Nat.mul_comm]

lemma ceilLog16_le_pow (n : Nat) : n ≤ 16 ^ ceilLog16 n :=
  ceilLog16Aux_le n n le_rfl

lemma ceilLog16_pos {n : Nat} (hn : 2 ≤ n) : 1 ≤ ceilLog16 n := by
  rw [ceilLog16]
  cases n with
  | zero => omega
  | succ k =>
    rw [ceilLog16Aux, if_neg (by omega)]
    omega

lemma forwardChunksAux_addr_lt (bpl : Nat) (hbpl : 1 ≤ bpl) :
    ∀ (fuel addr total : Nat) (rem : List Nat) (pr : Nat × List Nat),
      pr ∈ forwardChunksAux none bpl fuel addr total rem → pr.1 < addr + rem.length := by
  intro fuel
  induction fuel with
  | zero =>
    intro addr total rem pr hpr
    exact absurd hpr (by simp [forwardChunksAux])
  | succ f ih =>
    intro addr total rem pr hpr
    cases rem with
    | nil =>
      rw [forwardChunksAux_nil_rem] at hpr
      simp at hpr
    | cons r rs =>
      have hch := take_cons_ne_nil r rs bpl hbpl
      rw [forwardChunksAux_none_step bpl f addr total r rs hch] at hpr
      rcases List.mem_cons.mp hpr with rfl | hpr
      · simp
      · have hlt := ih _ _ _ _ hpr
        have hlen1 : ((r :: rs).take bpl).length = min bpl (rs.length + 1) := by
          simp [List.length_take]
        have hlen2 : ((r :: rs).drop bpl).length = rs.length + 1 - bpl := by
          simp
        rw [hlen1, hlen2] at hlt
        simp only [List.length_cons]
        omega

lemma addr_line_length {addr w : Nat} (upper : Bool) (hw : 1 ≤ w)
    (haddr : addr < 16 ^ w) : (addr_line addr w upper false).length = 2 + w := by
  cases upper with
  | false => exact addr_line_plain_length hw haddr
  | true =>
    show ('0' :: 'x' :: padLeftZeroes w ((natToHex addr).map Char.toUpper)).length = 2 + w
    rw [List.length_cons, List.length_cons, padLeftZeroes_length]
    · omega
    · rw [List.length_map]
      exact natToHex_length hw haddr

/-- C8: the address-field width is computed once per run as
`ceil(log16(file size))`: a 256-byte file gives width 2 and a 4096-byte
file gives width 3; and in a whole-file run over a file of at least 2
bytes, every emitted line's address field (`0x` plus the zero-padded
address) renders with that same width, i.e. occupies exactly
`2 + ceilLog16 (file size)` characters. -/
theorem address_width_policy :
    ceilLog16 256 = 2 ∧ ceilLog16 4096 = 3 ∧
    ∀ (data : List Nat) (bpl : Nat) (upper : Bool), 1 ≤ bpl → 2 ≤ data.length →
      ∀ pr ∈ forwardChunks none bpl 0 0 data,
        (addr_line pr.1 (ceilLog16 data.length) upper false).length
          = 2 + ceilLog16 data.length := by
  refine ⟨by decide, by decide, ?_⟩
  intro data bpl upper hbpl hlen2 pr hpr
  have hw : 1 ≤ ceilLog16 data.length := ceilLog16_pos hlen2
  have haddr : pr.1 < data.length := by
    have h := forwardChunksAux_addr_lt bpl hbpl data.length 0 0 data pr hpr
    simpa using h
  exact addr_line_length upper hw (lt_of_lt_of_le haddr (ceilLog16_le_pow data.length))

/-- Concrete instance of the address-width theorem: the single line of a
3-byte whole-file run at address 0 has an address field of width
`2 + ceilLog16 3` characters. -/
theorem address_width_policy_witness :
    (2 ≤ ([65, 66, 10] : List Nat).length) ∧
    (addr_line 0 (ceilLog16 ([65, 66, 10] : List Nat).length) false false).length
      = 2 + ceilLog16 ([65, 66, 10] : List Nat).length :=
  ⟨by decide, address_width_policy.2.2 [65, 66, 10] 16 false (by decide) (by decide)
    (0, [65, 66, 10]) (by decide)⟩

/-! ## MAX_COUNT clipping -/

/-- Total number of bytes represented across the emitted lines of a run. -/
def emittedTotal (l : List (Nat × List Nat)) : Nat :=
  (l.map fun pr => pr.2.length).sum

lemma effectiveCount_some (m total len : Nat) :
    effectiveCount (some m) total len = if m ≤ total + len then m - total else len := rfl

lemma forwardChunksAux_total_some (m bpl : Nat) (hbpl : 1 ≤ bpl) :
    ∀ (fuel : Nat) (rem : List Nat) (addr total : Nat),
      rem.length ≤ fuel → total ≤ m →
      emittedTotal (forwardChunksAux (some m) bpl fuel addr total rem)
        = min (m - total) rem.length := by
  intro fuel
  induction fuel with
  | zero =>
    intro rem addr total hlen _
    have hnil : rem = [] := List.eq_nil_of_length_eq_zero (Nat.le_zero.mp hlen)
    subst hnil
    simp [emittedTotal, forwardChunksAux]
  | succ f ih =>
    intro rem addr total hlen htot
    cases rem with
    | nil =>
      rw [forwardChunksAux_nil_rem]
      simp [emittedTotal]
    | cons r rs =>
      simp only [List.length_cons] at hlen
      by_cases hm : m ≤ total
      · rw [forwardChunksAux_reached m bpl (f + 1) addr total (r :: rs) hm]
        have hm0 : m - total = 0 := by omega
        simp [emittedTotal, hm0]
      · have hch := take_cons_ne_nil r rs bpl hbpl
        rw [forwardChunksAux_some_step m bpl f addr total r rs hch hm]
        have hlen1 : ((r :: rs).take bpl).length = min bpl (rs.length + 1) := by
          simp [List.length_take]
        rw [effectiveCount_some]
        by_cases htr : m ≤ total + ((r :: rs).take bpl).length
        · rw [if_pos htr]
          have hreach2 : forwardChunksAux (some m) bpl f
              (addr + (m - total)) (total + (m - total)) ((r :: rs).drop bpl) = [] := by
            apply forwardChunksAux_reached
            omega
          rw [hreach2]
          have htk : (((r :: rs).take bpl).take (m - total)).length = m - total := by
            rw [List.length_take]
            omega
          simp only [emittedTotal, List.map_cons, List.map_nil, List.sum_cons,
            List.sum_nil, htk, List.length_cons]
          omega
        · rw [if_neg htr]
          have hdrop : ((r :: rs).drop bpl).length = rs.length + 1 - bpl := by simp
          have hrec := ih ((r :: rs).drop bpl) (addr + ((r :: rs).take bpl).length)
            (total + ((r :: rs).take bpl).length) (by rw [hdrop]; omega) (by omega)
          rw [List.take_length]
          simp only [emittedTotal, List.map_cons, List.sum_cons] at *
          rw [hrec, hdrop]
          simp only [List.length_cons]
          omega

/-- C7: when `MAX_COUNT` is set to `m`, the forward loop emits exactly
`min m (available bytes)` bytes in total — never more than `m`, and
exactly `m` when at least `m` bytes are available (a read that would pass
`m` is truncated to land exactly on it); moreover whenever the running
total has already reached `m`, the loop ends immediately without emitting
anything. -/
theorem forward_max_count_clipping (m bpl : Nat) (data : List Nat) (hbpl : 1 ≤ bpl) :
    emittedTotal (forwardChunks (some m) bpl 0 0 data) = min m data.length
    ∧ ∀ (addr total : Nat) (rem : List Nat), m ≤ total →
        forwardChunks (some m) bpl addr total rem = [] := by
  constructor
  · have h := forwardChunksAux_total_some m bpl hbpl data.length data 0 0 le_rfl
      (Nat.zero_le m)
    rw [Nat.sub_zero] at h
    exact h
  · intro addr total rem hm
    exact forwardChunksAux_reached m bpl rem.length addr total rem hm

/-- Concrete instance of the clipping theorem: 7 bytes, 2 per line,
`MAX_COUNT = 5` emits exactly `min 5 7 = 5` bytes. -/
theorem forward_max_count_clipping_witness :
    1 ≤ 2 ∧ emittedTotal (forwardChunks (some 5) 2 0 0 [0, 0, 0, 0, 0, 0, 0]) = min 5 7 :=
  ⟨by decide, (forward_max_count_clipping 5 2 [0, 0, 0, 0, 0, 0, 0] (by decide)).1⟩

/-! ## Reverse-mode field-count semantics and atomicity -/

lemma decodeLines_badFormat_at (line : List Char) (hline : extractHexField line = none) :
    ∀ (pre : List (List Char)) (idx : Nat) (rest : List (List Char)),
      (∀ l ∈ pre, decodeLineBytes l ≠ none) →
      decodeLines idx (pre ++ line :: rest) = .error (.badFormat (idx + pre.length + 1)) := by
  intro pre
  induction pre with
  | nil =>
    intro idx rest _
    rw [List.nil_append, decodeLines, hline]
    simp
  | cons x pre2 ih =>
    intro idx rest hpre
    have hx : decodeLineBytes x ≠ none := hpre x (List.mem_cons_self x pre2)
    cases hbs : decodeLineBytes x with
    | none => exact absurd hbs hx
    | some bs =>
      rw [List.cons_append, decodeLines_cons_of_some idx x _ bs hbs,
        ih (idx + 1) rest (fun l hl => hpre l (List.mem_cons_of_mem _ hl))]
      have harith : idx + 1 + pre2.length + 1 = idx + (x :: pre2).length + 1 := by
        rw [List.length_cons]
        omega
      exact congrArg
        (fun n => (Except.error (RevError.badFormat n) : Except RevError (List Nat))) harith

/-- C9: one field means the whole line is the hex payload; two or three
fields mean the second field is the payload; four or more fields is a
fatal format error, and when it occurs on a line (all earlier lines being
well-formed) the whole run stops with an error reporting that line's
1-based index. -/
theorem reverse_field_count_semantics :
    (∀ (line p : List Char), splitSep '│' (rustTrim line) = [p] →
      extractHexField line = some p)
    ∧ (∀ (line a p : List Char), splitSep '│' (rustTrim line) = [a, p] →
      extractHexField line = some p)
    ∧ (∀ (line a p q : List Char), splitSep '│' (rustTrim line) = [a, p, q] →
      extractHexField line = some p)
    ∧ (∀ line : List Char, 4 ≤ (splitSep '│' (rustTrim line)).length →
      extractHexField line = none)
    ∧ ∀ (pre : List (List Char)) (line : List Char) (rest : List (List Char)),
        (∀ l ∈ pre, decodeLineBytes l ≠ none) →
        extractHexField line = none →
        decodeLines 0 (pre ++ line :: rest) = .error (.badFormat (pre.length + 1)) := by
  refine ⟨?_, ?_, ?_, ?_, ?_⟩
  · intro line p h
    rw [extractHexField, h]
  · intro line a p h
    rw [extractHexField, h]
  · intro line a p q h
    rw [extractHexField, h]
  · intro line h4
    cases hsp : splitSep '│' (rustTrim line) with
    | nil => rw [hsp] at h4; simp at h4
    | cons a t1 =>
      cases t1 with
      | nil => rw [hsp] at h4; simp at h4
      | cons b t2 =>
        cases t2 with
        | nil => rw [hsp] at h4; simp at h4
        | cons c t3 =>
          cases t3 with
          | nil => rw [hsp] at h4; simp at h4
          | cons d t4 =>
            rw [extractHexField, hsp]
  · intro pre line rest hpre hline
    have h := decodeLines_badFormat_at line hline pre 0 rest hpre
    rw [Nat.zero_add] at h
    exact h

/-- Concrete instance of the field-count theorem: a dump whose second line
has four separator-delimited fields makes the whole run fail with an error
reporting line number 2. -/
theorem reverse_field_count_semantics_witness :
    (∀ l ∈ [(("41")).data], decodeLineBytes l ≠ none) ∧
    decodeLines 0 ([(("41")).data] ++ (("a│b│c│d")).data :: []) =
      .error (.badFormat 2) := by
  refine ⟨by decide, ?_⟩
  have h := reverse_field_count_semantics.2.2.2.2 [(("41")).data] ((("a│b│c│d")).data) []
    (by decide) (by decide)
  simpa using h

lemma decodeLines_error_exists :
    ∀ (lines : List (List Char)) (idx : Nat),
      (∃ l ∈ lines, decodeLineBytes l = none) →
      ∃ e, decodeLines idx lines = .error e := by
  intro lines
  induction lines with
  | nil =>
    intro idx h
    simp at h
  | cons x rest ih =>
    intro idx h
    cases hbs : decodeLineBytes x with
    | none =>
      rw [decodeLineBytes] at hbs
      cases he : extractHexField x with
      | none => exact ⟨.badFormat (idx + 1), by rw [decodeLines, he]⟩
      | some payload =>
        rw [he] at hbs
        dsimp only at hbs
        refine ⟨.badHex (idx + 1) (payload.filter fun c => c != ' '), ?_⟩
        rw [decodeLines, he]
        dsimp only
        rw [hbs]
    | some bs =>
      rcases h with ⟨l, hl, hlnone⟩
      rcases List.mem_cons.mp hl with rfl | hl
      · rw [hbs] at hlnone
        exact absurd hlnone (by simp)
      · obtain ⟨e, he⟩ := ih (idx + 1) ⟨l, hl, hlnone⟩
        refine ⟨e, ?_⟩
        rw [decodeLines_cons_of_some idx x rest bs hbs, he]

/-- C10: reverse-mode decoding is atomic with respect to the output file:
all lines are decoded in memory first, so if any line fails the
field-count check or hex decoding, the run errors out with the file system
unchanged — no output file is created and nothing is written. -/
theorem reverse_atomic_no_output_on_error (fs : FS (List Nat)) (input : List Char)
    (outPath : String) (h : ∃ l ∈ rustLines input, decodeLineBytes l = none) :
    ∃ e, reverse_operation fs input outPath = (some e, fs) := by
  obtain ⟨e, he⟩ := decodeLines_error_exists (rustLines input) 0 h
  exact ⟨e, by rw [reverse_operation, he]⟩

/-- Concrete instance of the atomicity theorem: an input whose only line is
undecodable hex leaves the (empty) file system untouched. -/
theorem reverse_atomic_no_output_on_error_witness :
    (∃ l ∈ rustLines (("zz").data), decodeLineBytes l = none) ∧
    ∃ e, reverse_operation [] (("zz").data) ("out") = (some e, []) :=
  ⟨by decide, reverse_atomic_no_output_on_error [] (("zz").data) ("out") (by decide)⟩

/-! ## Output-file creation policy -/

/-- Counterexample to the claim that the reverse pipeline fails when its
output path already exists: with `out` already present (contents
`[1, 2, 3]`), reversing the one-line dump `41` succeeds (no error) and the
output path now reads back as `[0x41]` — the old contents are silently
replaced, because `reverse_operation` opens its output with `File::create`
rather than `File::create_new`. -/
theorem reverse_overwrites_existing_output :
    (reverse_operation [(("out" : String), ([1, 2, 3] : List Nat))] (("41").data)
      ("out")).1 = none
    ∧ List.lookup ("out")
        (reverse_operation [(("out" : String), ([1, 2, 3] : List Nat))] (("41").data)
          ("out")).2 = some [65] := by
  constructor
  · rfl
  · rfl

/-- C2 (amended): the forward pipeline's file output is opened with
`File::create_new` and fails whenever the output path already exists,
but the reverse pipeline opens its output with `File::create`, which
always succeeds and silently truncates/overwrites an existing file. -/
theorem output_creation_policy :
    (∀ (fs : FS (List Char)) (data : List Nat) (start : Nat) (mc : Option Nat)
      (bpl : Nat) (upper : Bool) (outPath : String),
      (List.lookup outPath fs).isSome = true →
      read_binary_file_fs fs data start mc bpl upper outPath = none)
    ∧ ∀ (fs : FS (List Nat)) (input : List Char) (outPath : String) (bytes : List Nat),
      decodeLines 0 (rustLines input) = .ok bytes →
      reverse_operation fs input outPath = (none, fsWrite fs outPath bytes) := by
  constructor
  · intro fs data start mc bpl upper outPath h
    rw [read_binary_file_fs]
    cases hl : List.lookup outPath fs with
    | none => rw [hl] at h; simp at h
    | some v => rfl
  · intro fs input outPath bytes h
    rw [reverse_operation, h]

/-- Concrete instance of the creation-policy theorem: forward output to an
existing path fails; reverse output of the one-line dump `41` succeeds and
writes `[0x41]`. -/
theorem output_creation_policy_witness :
    read_binary_file_fs [(("out" : String), ([] : List Char))] [] 0 none 16 false
      ("out") = none
    ∧ reverse_operation ([] : FS (List Nat)) (("41").data) ("out")
      = (none, fsWrite [] ("out") [65]) :=
  ⟨output_creation_policy.1 [(("out" : String), ([] : List Char))] [] 0 none 16 false
      ("out") (by decide),
    output_creation_policy.2 [] (("41").data) ("out") [65] rfl⟩

/-! ## Range parsing and resolution -/

/-- C3 evidence: an inverted range string parses without any validation
(`ByteRange::from_str` checks nothing about order), and `MAX_COUNT` is then
computed by the unchecked `usize` subtraction `end - start`, which for
`5-3` wraps to `2^64 - 2` (release profile; a debug build panics) instead
of failing with an `InvalidRange` error. -/
theorem inverted_range_no_invalid_range_error :
    ByteRange.from_str (("5-3").data) = .ok { start := 5, stop := 3 }
    ∧ resolveMaxCount (some { start := 5, stop := 3 }) none = some (2 ^ 64 - 2) := by
  constructor
  · rfl
  · rfl

/-- C4 evidence: a plain-decimal range string is reinterpreted as
hexadecimal, because `ByteRange::from_str` tries
`from_str_radix(..., 16)` first and every decimal digit string is valid
hex: `16-32` yields start `0x16 = 22` and end `0x32 = 50`, not 16 and 32.
The repository's own (unused) `util.rs` `parse_num` reads the same
components as decimal. -/
theorem decimal_range_parsed_as_hex :
    ByteRange.from_str (("16-32").data) = .ok { start := 22, stop := 50 }
    ∧ parse_num (("16").data) = some 16
    ∧ parse_num (("32").data) = some 32 := by
  refine ⟨rfl, rfl, rfl⟩

/-! ## Byte classification -/

/-- The fixed classification table of the specification (§4.2): 0 maps to
`•`, 9/10/13/32 to `⇥`/`␊`/`␍`/`␣`, 33–126 to the literal ASCII character,
128–255 to `×`, and every remaining value (1–8, 11–12, 14–31, 127) to `▴`.
This definition follows the words of the spec, to be compared with the
source's `get_ascii`. -/
def asciiGlyphSpec (b : Nat) : String :=
  if b = 0 then "•"
  else if b = 9 then "⇥"
  else if b = 10 then "␊"
  else if b = 13 then "␍"
  else if b = 32 then "␣"
  else if 33 ≤ b ∧ b ≤ 126 then String.singleton (Char.ofNat b)
  else if 128 ≤ b ∧ b ≤ 255 then "×"
  else "▴"

/-- C5: for every byte value, the ASCII-glyph classification of the source
(`get_ascii`) is total and agrees with the spec's fixed table. -/
theorem get_ascii_matches_table : ∀ b : Fin 256, get_ascii b.val = asciiGlyphSpec b.val := by
  decide

/-! ## Hex-field padding invariant -/

/-- C6: for every emitted chunk of length `1 ≤ k ≤ bytes_per_line`, the
(plain) hex field plus its right padding of 3 spaces per missing byte
occupies exactly `3 * bytes_per_line - 1` characters, so every line of a
run has the same column width up to the second separator. -/
theorem hex_field_padding_invariant (chunk : List Nat) (bpl : Nat) (upper : Bool)
    (h1 : 1 ≤ chunk.length) (h2 : chunk.length ≤ bpl) :
    (hex_line chunk chunk.length upper false).length + (bpl - chunk.length) * 3
      = 3 * bpl - 1 := by
  rw [hex_line]
  have hlen : ((chunk.take chunk.length).map (fun b =>
      apply_if (apply_if (byteToHex b) upper (fun l => l.map Char.toUpper)) false
        (colorize (get_color b)))).length = chunk.length := by
    rw [List.length_map, List.take_length]
  have hpieces : ∀ p ∈ (chunk.take chunk.length).map (fun b =>
      apply_if (apply_if (byteToHex b) upper (fun l => l.map Char.toUpper)) false
        (colorize (get_color b))), p.length = 2 := by
    intro p hp
    rcases List.mem_map.mp hp with ⟨b, _, rfl⟩
    show (apply_if (byteToHex b) upper (fun l => l.map Char.toUpper)).length = 2
    cases upper with
    | false => rfl
    | true =>
      show ((byteToHex b).map Char.toUpper).length = 2
      rw [List.length_map]
      rfl
  have hnonempty : (chunk.take chunk.length).map (fun b =>
      apply_if (apply_if (byteToHex b) upper (fun l => l.map Char.toUpper)) false
        (colorize (get_color b))) ≠ [] := by
    intro he
    rw [he] at hlen
    simp at hlen
    omega
  rw [joinSep_length_of_pieces _ hpieces hnonempty, hlen]
  omega

/-- Concrete instance of the padding invariant: a 1-byte final chunk with
16 bytes per line still fills `3 * 16 - 1 = 47` columns. -/
theorem hex_field_padding_invariant_witness :
    1 ≤ ([0] : List Nat).length ∧ ([0] : List Nat).length ≤ 16 ∧
    (hex_line [0] ([0] : List Nat).length false false).length
      + (16 - ([0] : List Nat).length) * 3 = 3 * 16 - 1 :=
  ⟨by decide, by decide, hex_field_padding_invariant [0] 16 false (by decide) (by decide)⟩
